import Mathlib

/-!
Shallow embedding of pyBackup (src/backup_service.py) and verification of the
frozen claims about its backup versioning engine.

Modelling conventions:
* Python strings (file names, relative paths, digests) are modelled as
  `List Char` (`Name`), so that Python's `str.startswith` / `str.endswith` /
  lexicographic comparison become `List.isPrefixOf` / `List.isSuffixOf` / the
  lexicographic order on `List Char`.
* Python `dict`s (manifests) are modelled as association lists; `dictGet`,
  `dictSet` and `dictUpdate` implement the value semantics of `d.get(k)`,
  `d[k] = v` and `d.update(other)` (the newest binding for a key wins).
* `os.path.getmtime` values (floats) are modelled as `Int`; only equality and
  ordering of timestamps matter to the code under verification.
* Filesystem effects are made explicit: a destination directory is a
  `List FsFile`, and each operation returns the updated listing.
-/

namespace PyBackup

/-- A Python string: list of characters. -/
abbrev Name := List Char

/-- One manifest entry: `{'hash': ..., 'time': ...}` as written by
`backup_folder` (`current_manifest[arcname] = {'hash': file_hash, 'time': file_time}`). -/
structure MEntry where
  hash : Name
  time : Int
deriving DecidableEq, Inhabited

/-- A manifest: Python dict mapping arcname (path relative to the folder root)
to its entry.  Modelled as an association list. -/
abbrev Manifest := List (Name × MEntry)

/-- Python `d.get(k)`: the binding for `k`, if any. -/
def dictGet (m : Manifest) (k : Name) : Option MEntry :=
  match m with
  | [] => none
  | p :: rest => if p.1 = k then some p.2 else dictGet rest k

/-- Python `d[k] = v`: any previous binding for `k` is replaced. -/
def dictSet (m : Manifest) (k : Name) (v : MEntry) : Manifest :=
  match m with
  | [] => [(k, v)]
  | p :: rest => if p.1 = k then dictSet rest k v else p :: dictSet rest k v

/-- Python `d.update(other)`: every binding of `other` is written into `d`. -/
def dictUpdate (m other : Manifest) : Manifest :=
  other.foldl (fun acc p => dictSet acc p.1 p.2) m

/-- Keys of a manifest. -/
def maniKeys (m : Manifest) : List Name := m.map (fun p => p.1)

/-! ## Name helpers (Python string operations used by the service) -/

/-- Python `str.replace(pat, rep)` with bounded fuel; `fuel = s.length` always
suffices, see `replaceAll`.  Matches Python semantics for a nonempty
pattern: the leftmost occurrence is replaced and scanning continues after
the replacement. -/
def replaceAllF (pat rep : Name) : Nat → Name → Name
  | _, [] => []
  | 0, s => s
  | fuel + 1, c :: rest =>
    if pat ≠ [] ∧ pat.isPrefixOf (c :: rest) then
      rep ++ replaceAllF pat rep fuel (rest.drop (pat.length - 1))
    else
      c :: replaceAllF pat rep fuel rest

/-- Python `s.replace(pat, rep)` (the service only calls it with the
nonempty pattern `'.zip'`). -/
def replaceAll (pat rep s : Name) : Name := replaceAllF pat rep s.length s

/-- Python `s.strip('/\\')`: remove leading and trailing path separators. -/
def stripSeps (s : Name) : Name :=
  let isSep := fun c : Char => c = '/' ∨ c = '\\'
  ((s.dropWhile (fun c => decide (isSep c))).reverse.dropWhile
    (fun c => decide (isSep c))).reverse

/-- Python `os.path.basename`: the part after the last path separator. -/
def pathBase (s : Name) : Name :=
  let isSep := fun c : Char => c = '/' ∨ c = '\\'
  (s.reverse.takeWhile (fun c => decide (¬ isSep c))).reverse

/-- Code `folder_name = os.path.basename(folder_path.strip('/\\'))` followed by
`folder_zip_filename = folder_name + '.zip'` in `backup_folder`. -/
def folderZipName (folderPath : Name) : Name :=
  pathBase (stripSeps folderPath) ++ ".zip".data

/-! ## Change Tracker and Archive Builder (`backup_folder`) -/

/-- One candidate file yielded by the `os.walk` loop of `backup_folder`.
`rel` is the arcname (`os.path.relpath(file_path, folder_path)`), `hash`
the SHA-256 hex digest `get_file_hash` would return, `mtime` the
`os.path.getmtime` value, and `readOk` whether the per-file `try` block
(hashing / stat / zip write) succeeds; on failure the file is logged and
skipped. -/
structure FileRec where
  rel : Name
  hash : Name
  mtime : Int
  readOk : Bool
deriving DecidableEq, Inhabited

/-- One configured backup source folder.  `present` is
`os.path.exists(folder_path)`; `files` lists the candidate files in walk
order (the `recursive` flag of the config only determines which files the
walk yields, so it is already folded into this list). -/
structure Folder where
  path : Name
  present : Bool
  files : List FileRec
deriving DecidableEq, Inhabited

/-- The differential change test of `backup_folder`:
`base_info = base_manifest.get(arcname, {})` followed by
`base_info.get('hash') == file_hash and base_info.get('time') == file_time`.
When no base entry exists, `base_info.get(...)` is `None`, which never
equals the (non-`None`) digest string, so the file counts as changed. -/
def fileUnchanged (baseManifest : Manifest) (arcname : Name) (fileHash : Name)
    (fileTime : Int) : Bool :=
  match dictGet baseManifest arcname with
  | some e => e.hash == fileHash && e.time == fileTime
  | none => false

/-- Accumulated state of the per-file loop in `backup_folder`:
the arcnames written into the nested folder zip, `current_manifest`, and
`files_processed`. -/
structure FState where
  zipEntries : List Name
  mani : Manifest
  processed : Nat
deriving DecidableEq, Inhabited

/-- The branch of the loop that actually backs a file up:
`folder_zip.write(file_path, arcname)` followed by
`current_manifest[arcname] = {'hash': ..., 'time': ...}` and
`files_processed += 1`. -/
def includeFile (st : FState) (f : FileRec) : FState :=
  { zipEntries := st.zipEntries ++ [f.rel]
    mani := dictSet st.mani f.rel ⟨f.hash, f.mtime⟩
    processed := st.processed + 1 }

/-- One iteration of the per-file loop of `backup_folder`.  An unreadable
file raises inside the `try` block and is skipped entirely; an unchanged
file (differential mode only) is skipped but still counted into
`files_processed`; every other file is written and recorded. -/
def stepFile (baseManifest : Option Manifest) (st : FState) (f : FileRec) : FState :=
  if !f.readOk then st
  else
    match baseManifest with
    | some bm =>
      if fileUnchanged bm f.rel f.hash f.mtime then
        { st with processed := st.processed + 1 }
      else includeFile st f
    | none => includeFile st f

/-- Result of `backup_folder`: the returned `(current_manifest,
files_processed)` pair, plus what was folded into the session container —
`some (folder_zip_filename, entries)` when
`main_zip.writestr(folder_zip_filename, zip_data)` ran (the nested zip also
always holds the `path.txt` marker besides `entries`), `none` otherwise. -/
structure FolderResult where
  mani : Manifest
  processed : Nat
  nested : Option (Name × List Name)
deriving DecidableEq, Inhabited

/-- Function `backup_folder(main_zip, folder_path, recursive, manifest, base_manifest)`.
The `manifest` parameter of the Python function is accepted and never used,
so it is omitted here.  A missing folder and a folder with zero candidate
files (`count_files == 0`) both return an empty result without writing
anything.  Otherwise the per-file loop runs and the freshly built nested
zip — well-formed by construction, so its `verify_zip_content` check
passes — is added to the session container iff `files_processed > 0`. -/
def backup_folder (folder : Folder) (baseManifest : Option Manifest) : FolderResult :=
  if !folder.present then ⟨[], 0, none⟩
  else if folder.files.isEmpty then ⟨[], 0, none⟩
  else
    let st := folder.files.foldl (stepFile baseManifest) ⟨[], [], 0⟩
    if st.processed > 0 then
      ⟨st.mani, st.processed, some (folderZipName folder.path, st.zipEntries)⟩
    else ⟨st.mani, st.processed, none⟩

/-! ## Destination directory and Retention Manager (`enforce_backup_limit`) -/

/-- A file in the backup destination directory: its name (as listed by
`os.listdir`) and its `os.path.getmtime` timestamp. -/
structure FsFile where
  name : Name
  mtime : Int
deriving DecidableEq, Inhabited

/-- The filter of `enforce_backup_limit`:
`entry.startswith("backup_") and entry.endswith(".zip")`.  It catches all
three session-archive name shapes (`backup_full_...`, `backup_diff_...`,
legacy `backup_...`) and nothing else. -/
def isSessionArchiveName (n : Name) : Bool :=
  "backup_".data.isPrefixOf n && ".zip".data.isSuffixOf n

/-- A session manifest file name `<session>_manifest.json`. -/
def isManifestName (n : Name) : Bool :=
  "_manifest.json".data.isSuffixOf n

/-- The session archives among the destination files. -/
def sessionArchives (fs : List FsFile) : List FsFile :=
  fs.filter (fun f => isSessionArchiveName f.name)

/-- Code `sorted(..., key=lambda entry: os.path.getmtime(...))`: the session
archives sorted ascending by modification time (Python sort is stable;
`insertionSort` is stable as well). -/
def sortedArchives (fs : List FsFile) : List FsFile :=
  List.insertionSort (fun a b : FsFile => a.mtime ≤ b.mtime) (sessionArchives fs)

/-- The archives `enforce_backup_limit` deletes:
`backups[:len(backups) - max_backups]` (empty when not over the limit). -/
def retentionDeleted (maxBackups : Nat) (fs : List FsFile) : List FsFile :=
  (sortedArchives fs).take ((sortedArchives fs).length - maxBackups)

/-- Names of a list of destination files. -/
def fsNames (l : List FsFile) : List Name := l.map (fun f => f.name)

/-- Function `enforce_backup_limit()`: when the archive count exceeds `max_backups`,
`os.remove` each of the `count - max_backups` oldest archives. -/
def enforce_backup_limit (maxBackups : Nat) (fs : List FsFile) : List FsFile :=
  if (sortedArchives fs).length > maxBackups then
    fs.filter (fun f => !(fsNames (retentionDeleted maxBackups fs)).contains f.name)
  else fs

/-! ## Archive Integrity Guard (`fix_bad_zipfile`) -/

/-- The fixed end-of-central-directory signature `b'PK\x05\x06'`. -/
def eocdSig : List Nat := [0x50, 0x4B, 0x05, 0x06]

/-- Python `bytes.find(pat)`: index of the leftmost occurrence, if any. -/
def bytesFind (data pat : List Nat) : Option Nat :=
  (List.range (data.length + 1)).find? (fun i => pat.isPrefixOf (data.drop i))

/-- Function `fix_bad_zipfile(zip_path)`: scan the raw bytes for `eocdSig`; with
`pos = data.find(b'PK\x05\x06')`, the code runs `if pos > 0:` — note the
strict comparison — then seeks to `pos + 22` (the size of the fixed
end-of-central-directory record) and truncates.  `f.truncate()` past the
end of the file zero-fills, matching Python file semantics.  Returns the
flag the function returns together with the resulting file content. -/
def fix_bad_zipfile (data : List Nat) : Bool × List Nat :=
  let pos : Int := match bytesFind data eocdSig with
    | some n => (n : Int)
    | none => -1
  if pos > 0 then
    match bytesFind data eocdSig with
    | some n => (true, data.take (n + 22) ++ List.replicate (n + 22 - data.length) 0)
    | none => (false, data)
  else (false, data)

/-! ## Backup planning (`get_last_full_backup`, `should_create_full_backup`,
and the head of `execute_backup`) -/

/-- Code `sorted(os.listdir(backup_destination), reverse=True)`: directory
entries in descending lexicographic order. -/
def sortedNamesDesc (names : List Name) : List Name :=
  List.insertionSort (fun a b : Name => b ≤ a) names

/-- Code `entry.replace('.zip', '_manifest.json')` as used by
`get_last_full_backup`. -/
def fullManifestName (entry : Name) : Name :=
  replaceAll ".zip".data "_manifest.json".data entry

/-- The loop body condition of `get_last_full_backup`: the entry starts
with `backup_full_` and its derived manifest path exists in the
destination.  (Note: a manifest file `backup_full_..._manifest.json`
itself satisfies both conditions, since `.replace('.zip', ...)` leaves it
unchanged.) -/
def isEligibleFull (names : List Name) (entry : Name) : Bool :=
  "backup_full_".data.isPrefixOf entry && names.contains (fullManifestName entry)

/-- Function `get_last_full_backup()`: first eligible entry of the descending scan,
returned together with its manifest path. -/
def get_last_full_backup (names : List Name) : Option (Name × Name) :=
  ((sortedNamesDesc names).find? (isEligibleFull names)).map
    (fun e => (e, fullManifestName e))

/-- Function `should_create_full_backup()`: true when no full backup (with manifest)
exists, or when `days_since_full >= full_backup_interval`, where
`days_since_full = (time.time() - getctime(last_full)) / (24*3600)`.
The float division is modelled exactly: `delta / 86400 >= interval` iff
`delta >= interval * 86400`. -/
def should_create_full_backup (names : List Name) (ctimeOf : Name → Int)
    (now : Int) (fullBackupInterval : Int) : Bool :=
  match get_last_full_backup names with
  | none => true
  | some (entry, _) => decide (now - ctimeOf entry ≥ fullBackupInterval * 86400)

/-- Environment of the planning phase of `execute_backup` (lines 432-451):
the destination listing, filesystem metadata, the configured backup type,
and how `json.load` behaves on each manifest file. -/
structure PlanEnv where
  names : List Name
  ctimeOf : Name → Int
  now : Int
  backupTypeFull : Bool
  fullBackupInterval : Int
  manifestReadable : Name → Bool
  manifestContent : Name → Manifest

/-- The planning head of `execute_backup`: decides `is_full_backup` and
loads `base_manifest`.  `is_full_backup = backup_type == 'full' or
should_create_full_backup()`; for a differential run the manifest of
`get_last_full_backup()` is loaded, and a load failure flips the run to
full (`base_manifest` stays `None`). -/
def planBackup (env : PlanEnv) : Bool × Option Manifest :=
  let isFull0 := env.backupTypeFull ||
    should_create_full_backup env.names env.ctimeOf env.now env.fullBackupInterval
  if isFull0 then (true, none)
  else
    match get_last_full_backup env.names with
    | some (_, manifestPath) =>
      if env.names.contains manifestPath then
        if env.manifestReadable manifestPath then
          (false, some (env.manifestContent manifestPath))
        else (true, none)
      else (false, none)
    | none => (false, none)

/-! ## Session runner (`execute_backup`, lines 457-515) -/

/-- Code `backup_session_name = ("backup_full_" if is_full_backup else
"backup_diff_") + timestamp + ".zip"`.  (The model appends `".zip"`
directly; the Python format string produces the same name.) -/
def sessionName (isFullBackup : Bool) (timestamp : Name) : Name :=
  (if isFullBackup then "backup_full_".data else "backup_diff_".data) ++
    timestamp ++ ".zip".data

/-- The per-folder results of the backup loop. -/
def folderResults (folders : List Folder) (baseManifest : Option Manifest) :
    List FolderResult :=
  folders.map (fun f => backup_folder f baseManifest)

/-- Dict `complete_manifest`: starts empty and absorbs
`complete_manifest.update(folder_manifest)` for each folder in order. -/
def session_manifest (folders : List Folder) (baseManifest : Option Manifest) :
    Manifest :=
  (folderResults folders baseManifest).foldl (fun acc r => dictUpdate acc r.mani) []

/-- Counter `total_files_processed`: sum of the per-folder `files_processed`. -/
def totalFilesProcessed (folders : List Folder) (baseManifest : Option Manifest) :
    Nat :=
  (folderResults folders baseManifest).foldl (fun acc r => acc + r.processed) 0

/-- Python `os.remove(path)`: drop every listing entry with that name. -/
def removeFile (fs : List FsFile) (n : Name) : List FsFile :=
  fs.filter (fun f => !(f.name == n))

/-- What `execute_backup` reports: the "No changes detected" early return,
a successful run with its processed-file count, or the re-raised fatal
error of the `except` block. -/
inductive RunReport where
  | noChanges
  | success (filesProcessed : Nat)
  | fatal
deriving DecidableEq

/-- Outcome of one `execute_backup` run: the report and the final
destination-directory listing. -/
structure RunResult where
  report : RunReport
  fs : List FsFile
deriving DecidableEq

/-- Environment of the body of `execute_backup` after planning:
`is_full_backup` and `base_manifest` as decided by `planBackup`, the
configured folders, the run timestamp, the destination listing before the
run, `max_backups`, the timestamp the new files get, and whether the
post-build verification of the session container raises
(`verify_zip_content` failing for a nested zip, or the zip being
unreadable). -/
structure RunEnv where
  prevFs : List FsFile
  maxBackups : Nat
  isFullBackup : Bool
  baseManifest : Option Manifest
  folders : List Folder
  timestamp : Name
  now : Int
  verifyFails : Bool

/-- The body of `execute_backup` (lines 457-515).  Opening the session zip
for writing creates the archive file; after the folder loop the manifest is
dumped next to it.  Then, in order: the zero-change differential
self-cleanup (`if not is_full_backup and total_files_processed == 0`:
remove archive and manifest, report no changes, return — before any
retention action); the verification step, whose failure raises into the
`except` block, which removes the archive (it exists) and re-raises; and
finally `enforce_backup_limit()` and the success report. -/
def execute_backup (env : RunEnv) : RunResult :=
  let sname := sessionName env.isFullBackup env.timestamp
  let mname := replaceAll ".zip".data "_manifest.json".data sname
  let total := totalFilesProcessed env.folders env.baseManifest
  let fs1 := env.prevFs ++ [⟨sname, env.now⟩, ⟨mname, env.now⟩]
  if !env.isFullBackup && total == 0 then
    ⟨RunReport.noChanges, removeFile (removeFile fs1 sname) mname⟩
  else if env.verifyFails then
    ⟨RunReport.fatal, removeFile fs1 sname⟩
  else
    ⟨RunReport.success total, enforce_backup_limit env.maxBackups fs1⟩

/-! ## Restore Engine (`restore_backup`) -/

/-- A nested per-folder zip inside a session container: its entry name,
whether it holds the `path.txt` marker, the marker contents (the original
absolute folder path), and its file entries besides the marker. -/
structure NestedZip where
  zname : Name
  hasMarker : Bool
  origPath : Name
  entries : List Name
deriving DecidableEq, Inhabited

/-- A session archive in the destination, as `restore_backup` sees it:
its file name and the nested zips it contains. -/
structure SessionZip where
  name : Name
  nested : List NestedZip
deriving DecidableEq, Inhabited

/-- Function `restore_backup` raises `FileNotFoundError` when the named backup is
absent; no other error kind aborts the whole restore (per-folder errors are
logged and skipped). -/
inductive RestoreError where
  | fileNotFound
deriving DecidableEq

/-- Observable trace of one `restore_backup` invocation: which session
archives in the destination were opened, and which nested folder zips had
their extraction loop run. -/
structure RestoreTrace where
  sessionsOpened : List Name
  foldersRestored : List Name
deriving DecidableEq

/-- Function `restore_backup(backup_name, selected_folders)`.  The function opens
exactly the one archive `os.path.join(backup_destination, backup_name)` —
no other session is consulted, whatever the backup's kind.  Inside it,
entries ending in `.zip` are the folder zips; an optional folder filter
restricts them; a nested zip without the `path.txt` marker is skipped with
a warning; the interactive confirmations (restore this folder? create its
parent directory?) are bundled into the `confirm` oracle.  The per-file
extraction loop (with its per-existing-file overwrite prompt) is not
modelled — the claims under verification concern which sessions are
restored, not individual file writes.  `restoreTraceOf` is the body run
for the opened archive; `restore_backup` is the function itself. -/
def restoreTraceOf (z : SessionZip) (backupName : Name)
    (selectedFolders : Option (List Name)) (confirm : Name → Bool) : RestoreTrace :=
  let folderZips : List NestedZip :=
    z.nested.filter (fun e => ".zip".data.isSuffixOf e.zname)
  let folderZips : List NestedZip := match selectedFolders with
    | some sel =>
      folderZips.filter
        (fun e => (sel.map (fun s => s ++ ".zip".data)).contains e.zname)
    | none => folderZips
  let restored : List NestedZip :=
    folderZips.filter (fun e => e.hasMarker && confirm e.zname)
  ⟨[backupName], restored.map (fun e => e.zname)⟩

def restore_backup (store : List SessionZip) (backupName : Name)
    (selectedFolders : Option (List Name)) (confirm : Name → Bool) :
    Except RestoreError RestoreTrace :=
  match store.find? (fun z => z.name == backupName) with
  | none => Except.error RestoreError.fileNotFound
  | some z => Except.ok (restoreTraceOf z backupName selectedFolders confirm)

/-- Session kind as encoded in the archive file name (spec vocabulary:
Full / Differential / legacy). -/
inductive BackupKind where
  | full
  | differential
  | legacy
deriving DecidableEq

/-- Kind of a session, read off its name prefix. -/
def nameKind (n : Name) : BackupKind :=
  if "backup_full_".data.isPrefixOf n then BackupKind.full
  else if "backup_diff_".data.isPrefixOf n then BackupKind.differential
  else BackupKind.legacy

/-- A full-session archive name (spec vocabulary, used to state claims
about "the most recent Full session"). -/
def isFullSessionName (n : Name) : Bool :=
  "backup_full_".data.isPrefixOf n && ".zip".data.isSuffixOf n

instance : IsTotal Name (fun a b : Name => b ≤ a) :=
  ⟨fun a b => le_total b a⟩

instance : IsTrans Name (fun a b : Name => b ≤ a) :=
  ⟨fun _ _ _ h1 h2 => le_trans h2 h1⟩

instance : IsTotal FsFile (fun a b : FsFile => a.mtime ≤ b.mtime) :=
  ⟨fun a b => le_total a.mtime b.mtime⟩

instance : IsTrans FsFile (fun a b : FsFile => a.mtime ≤ b.mtime) :=
  ⟨fun _ _ _ h1 h2 => le_trans h1 h2⟩

deriving instance DecidableEq for Except

/-! ## Concrete inputs used by counterexamples and witnesses -/

/-- C1 inputs: a differential session with no prior full (and, for the
second scenario, a store that also holds an older full session). -/
def dnameC1 : Name := "backup_diff_20240115_120000.zip".data

def fnameC1 : Name := "backup_full_20240110_090000.zip".data

def nestedC1 : NestedZip := ⟨"docs.zip".data, true, "/data/docs".data, ["a.txt".data]⟩

def storeC1 : List SessionZip := [⟨dnameC1, [nestedC1]⟩]

def storeC1b : List SessionZip := [⟨fnameC1, [nestedC1]⟩, ⟨dnameC1, [nestedC1]⟩]

/-- C2 inputs: a differential run whose single folder has a single
candidate file matching the base manifest in digest and mtime. -/
def baseC2 : Manifest := [("a.txt".data, ⟨"h1".data, 5⟩)]

def envC2 : RunEnv :=
  { prevFs := [⟨"backup_full_20240101_000000.zip".data, 0⟩,
               ⟨"backup_full_20240101_000000_manifest.json".data, 0⟩]
    maxBackups := 5
    isFullBackup := false
    baseManifest := some baseC2
    folders := [⟨"/data/docs".data, true, [⟨"a.txt".data, "h1".data, 5, true⟩]⟩]
    timestamp := "20240102_000000".data
    now := 100
    verifyFails := false }

def sdiffC2 : Name := "backup_diff_20240102_000000.zip".data

def mdiffC2 : Name := "backup_diff_20240102_000000_manifest.json".data

/-- C3 inputs: a folder whose only candidate file is unchanged relative to
the base manifest. -/
def folderC3 : Folder := ⟨"/data/docs".data, true, [⟨"a.txt".data, "h1".data, 5, true⟩]⟩

def baseC3 : Manifest := [("a.txt".data, ⟨"h1".data, 5⟩)]

/-- C4 inputs: a full run with one changed file whose post-build session
verification fails. -/
def envC4 : RunEnv :=
  { prevFs := []
    maxBackups := 5
    isFullBackup := true
    baseManifest := none
    folders := [⟨"/data/docs".data, true, [⟨"a.txt".data, "h1".data, 5, true⟩]⟩]
    timestamp := "20240102_000000".data
    now := 100
    verifyFails := true }

def mnameC4 : Name := "backup_full_20240102_000000_manifest.json".data

/-- C5 inputs: a file that IS exactly an empty-zip end-of-central-directory
record (signature at offset 0), and a file with the signature at offset 5
followed by trailing garbage. -/
def dataC5 : List Nat := eocdSig ++ List.replicate 18 0

def dataC5w : List Nat := [1, 2, 3, 4, 5] ++ eocdSig ++ List.replicate 18 0 ++ [9, 9]

/-- C6 inputs. -/
def baseC6 : Manifest := [("a.txt".data, ⟨"h1".data, 5⟩)]

def fileC6 : FileRec := ⟨"a.txt".data, "h1".data, 5, true⟩

/-- C7 inputs: two full sessions; the recent one's manifest is missing, the
older one's manifest exists and is readable. -/
def f2zipC7 : Name := "backup_full_20240102_000000.zip".data

def f1zipC7 : Name := "backup_full_20240101_000000.zip".data

def f1maniC7 : Name := "backup_full_20240101_000000_manifest.json".data

def baseC7 : Manifest := [("a.txt".data, ⟨"h1".data, 5⟩)]

def envC7 : PlanEnv :=
  { names := [f1zipC7, f2zipC7, f1maniC7]
    ctimeOf := fun _ => 0
    now := 0
    backupTypeFull := false
    fullBackupInterval := 7
    manifestReadable := fun _ => true
    manifestContent := fun n => if n = f1maniC7 then baseC7 else [] }

/-- C8/C9 inputs: seven session archives of both kinds with distinct
modification times, plus manifests and the log file. -/
def fsC8 : List FsFile :=
  [⟨"backup_full_20240101_000000.zip".data, 1⟩,
   ⟨"backup_diff_20240102_000000.zip".data, 2⟩,
   ⟨"backup_diff_20240103_000000.zip".data, 3⟩,
   ⟨"backup_full_20240104_000000.zip".data, 4⟩,
   ⟨"backup_diff_20240105_000000.zip".data, 5⟩,
   ⟨"backup_diff_20240106_000000.zip".data, 6⟩,
   ⟨"backup_full_20240107_000000.zip".data, 7⟩,
   ⟨"backup_full_20240101_000000_manifest.json".data, 1⟩,
   ⟨"backup_full_20240104_000000_manifest.json".data, 4⟩,
   ⟨"backup_log.txt".data, 8⟩]

def fsC9 : List FsFile :=
  [⟨"backup_full_20240101_000000.zip".data, 1⟩,
   ⟨"backup_full_20240101_000000_manifest.json".data, 1⟩,
   ⟨"backup_diff_20240102_000000.zip".data, 2⟩,
   ⟨"backup_diff_20240102_000000_manifest.json".data, 2⟩,
   ⟨"backup_full_20240103_000000.zip".data, 3⟩]

def mfileC9 : FsFile := ⟨"backup_full_20240101_000000_manifest.json".data, 1⟩

/-- C10 inputs: two configured folders holding files at the same relative
path. -/
def folderC10a : Folder := ⟨"/srv/alpha".data, true, [⟨"x.txt".data, "ha".data, 7, true⟩]⟩

def folderC10b : Folder := ⟨"/srv/beta".data, true, [⟨"x.txt".data, "ha".data, 7, true⟩]⟩

def folderC10c : Folder := ⟨"/srv/gamma".data, true, [⟨"x.txt".data, "hc".data, 9, true⟩]⟩

/-! ## Claim counterexamples and code-bug evaluations (closed statements) -/

/-- C1, counterexample.  The claim says a restore of a Differential target
with no eligible prior Full session fails with `MissingBaseError`, and that
with an eligible prior Full the chain `[baseFull, target]` is restored.
In the code, `restore_backup` restores exactly the named archive: on a
store holding only a Differential session it succeeds and opens just that
session, and even when an older Full session exists it still opens only
the Differential target. -/
theorem C1_cex :
    nameKind dnameC1 = BackupKind.differential
    ∧ (∀ z ∈ storeC1, nameKind z.name ≠ BackupKind.full)
    ∧ restore_backup storeC1 dnameC1 none (fun _ => true)
        = Except.ok ⟨[dnameC1], ["docs.zip".data]⟩
    ∧ nameKind fnameC1 = BackupKind.full
    ∧ restore_backup storeC1b dnameC1 none (fun _ => true)
        = Except.ok ⟨[dnameC1], ["docs.zip".data]⟩ := by decide

/-- C2, code bug.  A differential run in which every candidate file of
every folder is unchanged relative to the base manifest does NOT self-clean:
because `backup_folder` counts skipped-unchanged files into
`files_processed`, `total_files_processed` is 1, the
`total_files_processed == 0` cleanup branch is not taken, and the run
leaves both the session archive and the (empty) manifest on disk and
reports success instead of "no changes". -/
theorem C2_no_self_cleanup :
    (∀ fo ∈ envC2.folders, ∀ f ∈ fo.files,
      fileUnchanged baseC2 f.rel f.hash f.mtime = true)
    ∧ envC2.isFullBackup = false
    ∧ envC2.baseManifest = some baseC2
    ∧ (execute_backup envC2).report = RunReport.success 1
    ∧ (⟨sdiffC2, 100⟩ : FsFile) ∈ (execute_backup envC2).fs
    ∧ (⟨mdiffC2, 100⟩ : FsFile) ∈ (execute_backup envC2).fs := by decide

/-- C3, code bug.  A folder whose only candidate file is unchanged during a
differential run still gets its nested container written into the session
container (with zero included file entries), because the
`if files_processed > 0` guard counts skipped-unchanged files: the claim
(and the `# Only add if files were actually backed up` comment) say the
nested container should have been discarded. -/
theorem C3_empty_nested_written :
    (∀ f ∈ folderC3.files, fileUnchanged baseC3 f.rel f.hash f.mtime = true)
    ∧ backup_folder folderC3 (some baseC3)
        = ⟨[], 1, some ("docs.zip".data, [])⟩ := by decide

/-- C4, counterexample.  When the post-build verification of the session
container fails, the `except` block of `execute_backup` removes only the
session archive; the manifest — written before verification — stays behind,
so the run ends with a manifest file and no archive at all: exactly the
manifest-without-archive state the claim says is never left on disk. -/
theorem C4_cex :
    (execute_backup envC4).report = RunReport.fatal
    ∧ isManifestName mnameC4 = true
    ∧ (⟨mnameC4, 100⟩ : FsFile) ∈ (execute_backup envC4).fs
    ∧ (∀ f ∈ (execute_backup envC4).fs, isSessionArchiveName f.name = false) := by
  decide

/-- C5, counterexample.  On a file that consists of the
end-of-central-directory signature at offset 0 (an empty zip with its
18-byte fixed tail), the signature occurs in the file, yet
`fix_bad_zipfile` returns `False` and does not truncate, because the code
tests `if pos > 0:` instead of `pos >= 0`. -/
theorem C5_cex :
    eocdSig.isPrefixOf dataC5 = true
    ∧ fix_bad_zipfile dataC5 = (false, dataC5) := by decide

/-- C7, counterexample.  With a recent full session whose manifest file is
missing and an older full session whose manifest exists,
`get_last_full_backup` skips the recent full and the run plans a
Differential against the OLDER full's manifest — it does not fall back to a
Full backup as the claim states. -/
theorem C7_cex :
    isFullSessionName f2zipC7 = true
    ∧ (∀ n ∈ envC7.names, isFullSessionName n = true → n ≤ f2zipC7)
    ∧ fullManifestName f2zipC7 ∉ envC7.names
    ∧ planBackup envC7 = (false, some baseC7) := by decide

/-! ## General helper lemmas -/

@[simp] theorem maniKeys_nil : maniKeys ([] : Manifest) = [] := rfl

@[simp] theorem maniKeys_cons (p : Name × MEntry) (l : Manifest) :
    maniKeys (p :: l) = p.1 :: maniKeys l := rfl

theorem dictGet_dictSet (m : Manifest) (k : Name) (v : MEntry) (q : Name) :
    dictGet (dictSet m k v) q = if q = k then some v else dictGet m q := by
  induction m with
  | nil =>
    by_cases h : q = k
    · subst h; simp [dictGet, dictSet]
    · have h2 : ¬ k = q := fun hh => h hh.symm
      simp [dictGet, dictSet, h, h2]
  | cons p rest ih =>
    by_cases hq : q = k
    · subst hq
      by_cases hpk : p.1 = q
      · simp [dictSet, hpk, ih]
      · simp only [dictSet, if_neg hpk, dictGet, ih, if_pos rfl, if_neg hpk]
    · by_cases hpk : p.1 = k
      · have hpq : ¬ p.1 = q := by rw [hpk]; exact fun hh => hq hh.symm
        simp only [dictSet, if_pos hpk, ih, if_neg hq, dictGet, if_neg hpq]
      · by_cases hpq : p.1 = q
        · simp only [dictSet, if_neg hpk, dictGet, if_pos hpq, ih, if_neg hq]
        · simp only [dictSet, if_neg hpk, dictGet, if_pos hpq, ih, if_neg hq, if_neg hpq]

theorem mem_maniKeys_dictSet (m : Manifest) (k : Name) (v : MEntry) (a : Name)
    (h : a ∈ maniKeys (dictSet m k v)) : a ∈ maniKeys m ∨ a = k := by
  induction m with
  | nil =>
    simp only [dictSet, maniKeys_cons, maniKeys_nil, List.mem_cons,
      List.not_mem_nil, or_false] at h
    exact Or.inr h
  | cons p rest ih =>
    by_cases hpk : p.1 = k
    · rw [show dictSet (p :: rest) k v = dictSet rest k v by simp [dictSet, hpk]] at h
      rcases ih h with hm | hk
      · exact Or.inl (by simp only [maniKeys_cons, List.mem_cons]; exact Or.inr hm)
      · exact Or.inr hk
    · rw [show dictSet (p :: rest) k v = p :: dictSet rest k v by simp [dictSet, hpk]] at h
      simp only [maniKeys_cons, List.mem_cons] at h
      rcases h with hp | hrest
      · exact Or.inl (by simp only [maniKeys_cons, List.mem_cons]; exact Or.inl hp)
      · rcases ih hrest with hm | hk
        · exact Or.inl (by simp only [maniKeys_cons, List.mem_cons]; exact Or.inr hm)
        · exact Or.inr hk

theorem maniKeys_nodup_dictSet (m : Manifest) (k : Name) (v : MEntry)
    (h : (maniKeys m).Nodup) : (maniKeys (dictSet m k v)).Nodup := by
  induction m with
  | nil => simp [maniKeys, dictSet]
  | cons p rest ih =>
    simp only [maniKeys_cons, List.nodup_cons] at h
    by_cases hpk : p.1 = k
    · rw [show dictSet (p :: rest) k v = dictSet rest k v by simp [dictSet, hpk]]
      exact ih h.2
    · rw [show dictSet (p :: rest) k v = p :: dictSet rest k v by simp [dictSet, hpk]]
      simp only [maniKeys_cons, List.nodup_cons]
      refine ⟨?_, ih h.2⟩
      intro hm
      rcases mem_maniKeys_dictSet rest k v p.1 hm with hm' | hk
      · exact h.1 hm'
      · exact hpk hk

theorem dictGet_eq_none_of_not_mem_keys (m : Manifest) (k : Name)
    (h : k ∉ maniKeys m) : dictGet m k = none := by
  induction m with
  | nil => simp [dictGet]
  | cons p rest ih =>
    have hk : ¬ p.1 = k := fun hh => h (by simp only [maniKeys_cons, List.mem_cons]; exact Or.inl hh.symm)
    have hr : k ∉ maniKeys rest := fun hm => h (by simp only [maniKeys_cons, List.mem_cons]; exact Or.inr hm)
    simp [dictGet, hk, ih hr]

theorem dictGet_dictUpdate (m other : Manifest)
    (h : (maniKeys other).Nodup) (q : Name) :
    dictGet (dictUpdate m other) q = (dictGet other q).or (dictGet m q) := by
  induction other generalizing m with
  | nil => simp [dictUpdate, dictGet]
  | cons p rest ih =>
    simp only [maniKeys_cons, List.nodup_cons] at h
    have step : dictUpdate m (p :: rest) = dictUpdate (dictSet m p.1 p.2) rest := by
      simp [dictUpdate]
    rw [step, ih _ h.2, dictGet_dictSet]
    by_cases hq : q = p.1
    · subst hq
      have hnone : dictGet rest p.1 = none :=
        dictGet_eq_none_of_not_mem_keys rest p.1 h.1
      simp [dictGet, hnone, Option.or]
    · have hpq : ¬ p.1 = q := fun hh => hq hh.symm
      simp [dictGet, hq, hpq]

theorem name_contains_iff (l : List Name) (a : Name) :
    l.contains a = true ↔ a ∈ l := by
  simp

theorem maniKeys_nodup_foldl (base : Option Manifest) (files : List FileRec)
    (st : FState) (h : (maniKeys st.mani).Nodup) :
    (maniKeys (files.foldl (stepFile base) st).mani).Nodup := by
  induction files generalizing st with
  | nil => simpa using h
  | cons f rest ih =>
    rw [List.foldl_cons]
    apply ih
    unfold stepFile
    by_cases hr : f.readOk
    · cases base with
      | none => simpa [hr, includeFile] using maniKeys_nodup_dictSet _ _ _ h
      | some bm =>
        by_cases hu : fileUnchanged bm f.rel f.hash f.mtime
        · simpa [hr, hu] using h
        · simpa [hr, hu, includeFile] using maniKeys_nodup_dictSet _ _ _ h
    · simpa [hr] using h

theorem backup_folder_maniKeys_nodup (folder : Folder) (base : Option Manifest) :
    (maniKeys (backup_folder folder base).mani).Nodup := by
  unfold backup_folder
  by_cases hp : folder.present
  · by_cases hne : folder.files.isEmpty
    · simp [hp, hne, maniKeys]
    · have hbase : (maniKeys (FState.mk [] [] 0).mani).Nodup := by simp [maniKeys]
      have := maniKeys_nodup_foldl base folder.files ⟨[], [], 0⟩ hbase
      by_cases hproc : (folder.files.foldl (stepFile base) ⟨[], [], 0⟩).processed > 0
      · simpa [hp, hne, hproc] using this
      · simpa [hp, hne, hproc] using this
  · simp [hp, maniKeys]

theorem session_manifest_append_single (l : List Folder) (fb : Folder)
    (base : Option Manifest) :
    session_manifest (l ++ [fb]) base
      = dictUpdate (session_manifest l base) (backup_folder fb base).mani := by
  simp [session_manifest, folderResults, List.map_append, List.foldl_append]

/-! ## Claim theorems -/

/-- C6: during a differential run a candidate file is treated as unchanged —
skipped, excluded from the nested archive and from the new manifest — iff
the base manifest holds an entry for the same relative path whose digest
equals the candidate's digest AND whose modification time equals the
candidate's modification time; absence of a base entry always classifies
the file as changed (and a changed file is written and recorded). -/
theorem C6_unchanged_iff (bm : Manifest) (f : FileRec) (st : FState)
    (hread : f.readOk = true) :
    (fileUnchanged bm f.rel f.hash f.mtime = true ↔
      ∃ e, dictGet bm f.rel = some e ∧ e.hash = f.hash ∧ e.time = f.mtime)
    ∧ (dictGet bm f.rel = none → fileUnchanged bm f.rel f.hash f.mtime = false)
    ∧ (fileUnchanged bm f.rel f.hash f.mtime = true →
        stepFile (some bm) st f = { st with processed := st.processed + 1 })
    ∧ (fileUnchanged bm f.rel f.hash f.mtime = false →
        stepFile (some bm) st f =
          { zipEntries := st.zipEntries ++ [f.rel]
            mani := dictSet st.mani f.rel ⟨f.hash, f.mtime⟩
            processed := st.processed + 1 }) := by
  refine ⟨?_, ?_, ?_, ?_⟩
  · cases h : dictGet bm f.rel with
    | none => simp [fileUnchanged, h]
    | some e =>
      constructor
      · intro hu
        refine ⟨e, rfl, ?_⟩
        simpa [fileUnchanged, h, Bool.and_eq_true, beq_iff_eq] using hu
      · rintro ⟨e2, he2, hh, ht⟩
        injection he2 with he2
        subst he2
        simp [fileUnchanged, h, hh, ht]
  · intro h
    simp [fileUnchanged, h]
  · intro h
    simp [stepFile, hread, h]
  · intro h
    simp [stepFile, includeFile, hread, h]

/-- C6 witness: a concrete readable file matching its base entry in both
digest and mtime is skipped without touching the zip entries or the
manifest. -/
theorem C6_witness :
    fileC6.readOk = true
    ∧ fileUnchanged baseC6 fileC6.rel fileC6.hash fileC6.mtime = true
    ∧ stepFile (some baseC6) ⟨[], [], 0⟩ fileC6 = ⟨[], [], 1⟩ := by
  refine ⟨rfl, by decide, ?_⟩
  have h := (C6_unchanged_iff baseC6 fileC6 ⟨[], [], 0⟩ rfl).2.2.1 (by decide)
  simpa using h

/-- C1 (amended): `restore_backup` performs no chain resolution.  For any
target present in the destination — Full, Differential or legacy alike —
it opens and restores exactly that one session archive (`[target]`), and
when the target is absent it fails with `FileNotFoundError`; no base Full
session is consulted and no `MissingBaseError` exists in the code. -/
theorem C1_restore_single (store : List SessionZip) (target : Name)
    (sel : Option (List Name)) (confirm : Name → Bool) :
    (∀ z, store.find? (fun w => w.name == target) = some z →
      restore_backup store target sel confirm
          = Except.ok (restoreTraceOf z target sel confirm)
        ∧ (restoreTraceOf z target sel confirm).sessionsOpened = [target])
    ∧ (store.find? (fun w => w.name == target) = none →
      restore_backup store target sel confirm
        = Except.error RestoreError.fileNotFound) := by
  constructor
  · intro z hz
    exact ⟨by simp [restore_backup, hz], rfl⟩
  · intro hz
    simp [restore_backup, hz]

/-- C1 witness: a concrete store holding one differential session; the
restore opens exactly that session. -/
theorem C1_witness :
    restore_backup storeC1 dnameC1 none (fun _ => true)
        = Except.ok (restoreTraceOf ⟨dnameC1, [nestedC1]⟩ dnameC1 none (fun _ => true))
    ∧ (restoreTraceOf ⟨dnameC1, [nestedC1]⟩ dnameC1 none (fun _ => true)).sessionsOpened
        = [dnameC1] :=
  (C1_restore_single storeC1 dnameC1 none (fun _ => true)).1
    ⟨dnameC1, [nestedC1]⟩ (by decide)

/-- C10: manifest entries are keyed by the file's path relative to its own
folder root, with unique keys per folder; the session manifest merges the
per-folder manifests with `dict.update`, so a relative path recorded by a
later-processed folder silently overwrites an earlier folder's entry; and
the differential unchanged check consults the merged base manifest by
relative path only, so a candidate in one folder can match a base entry
produced by a file of a different configured folder (concrete third
conjunct: `/srv/beta`'s `x.txt` is classified unchanged against the entry
that `/srv/alpha`'s `x.txt` wrote into the full-session manifest). -/
theorem C10_manifest_merge :
    (∀ (folder : Folder) (base : Option Manifest),
      (maniKeys (backup_folder folder base).mani).Nodup)
    ∧ (∀ (base : Option Manifest) (l : List Folder) (fb : Folder)
        (r : Name) (e : MEntry),
        dictGet (backup_folder fb base).mani r = some e →
        dictGet (session_manifest (l ++ [fb]) base) r = some e)
    ∧ backup_folder folderC10b (some (session_manifest [folderC10a] none))
        = ⟨[], 1, some ("beta.zip".data, [])⟩ := by
  refine ⟨backup_folder_maniKeys_nodup, ?_, by decide⟩
  intro base l fb r e he
  rw [session_manifest_append_single,
    dictGet_dictUpdate _ _ (backup_folder_maniKeys_nodup fb base), he]
  rfl

/-- C10 witness: with `/srv/alpha` and `/srv/gamma` both holding `x.txt`
(different digests), the merged session manifest of the run over
`[alpha, gamma]` holds gamma's entry — alpha's is overwritten. -/
theorem C10_witness :
    dictGet (session_manifest [folderC10a] none) "x.txt".data
        = some ⟨"ha".data, 7⟩
    ∧ dictGet (backup_folder folderC10c none).mani "x.txt".data
        = some ⟨"hc".data, 9⟩
    ∧ dictGet (session_manifest ([folderC10a] ++ [folderC10c]) none) "x.txt".data
        = some ⟨"hc".data, 9⟩ :=
  ⟨by decide, by decide,
    C10_manifest_merge.2.1 none [folderC10a] folderC10c "x.txt".data
      ⟨"hc".data, 9⟩ (by decide)⟩

theorem bytesFind_some_isPrefixOf {data pat : List Nat} {p : Nat}
    (h : bytesFind data pat = some p) : pat.isPrefixOf (data.drop p) = true := by
  have := List.find?_some h
  simpa using this

theorem bytesFind_eq_some_zero_of_isPrefixOf {data pat : List Nat}
    (h : pat.isPrefixOf data = true) : bytesFind data pat = some 0 := by
  unfold bytesFind
  rw [List.range_succ_eq_map, List.find?_cons_of_pos]
  simpa using h

theorem bytesFind_ne_none {data pat : List Nat} (hne : pat ≠ [])
    {i : Nat} (h : pat.isPrefixOf (data.drop i) = true) :
    bytesFind data pat ≠ none := by
  intro hnone
  rw [bytesFind, List.find?_eq_none] at hnone
  by_cases hi : i ≤ data.length
  · exact hnone i (List.mem_range.mpr (Nat.lt_succ_of_le hi)) h
  · have hdrop : data.drop i = [] :=
      List.drop_eq_nil_of_le (le_of_lt (Nat.not_le.mp hi))
    rw [hdrop] at h
    cases pat with
    | nil => exact hne rfl
    | cons a l => simp [List.isPrefixOf] at h

/-- C5 (amended): `fix_bad_zipfile` returns true iff the
end-of-central-directory signature occurs in the file at a strictly
positive offset — i.e. it occurs somewhere AND the file does not begin with
it (the code tests `pos > 0`, so a signature at offset 0 is reported as
"not found").  When it returns true it truncates immediately after the
22-byte end-of-central-directory record of the leftmost occurrence
(zero-filling if the record ran past the end of the file); when the
signature is absent, or present only at offset 0, it returns false and
leaves the bytes alone. -/
theorem C5_repair (data : List Nat) :
    ((fix_bad_zipfile data).1 = true ↔
      (¬ eocdSig.isPrefixOf data = true
        ∧ ∃ i, eocdSig.isPrefixOf (data.drop i) = true))
    ∧ (∀ p, bytesFind data eocdSig = some p → 0 < p →
        fix_bad_zipfile data
          = (true, data.take (p + 22) ++ List.replicate (p + 22 - data.length) 0))
    ∧ (bytesFind data eocdSig = none → fix_bad_zipfile data = (false, data))
    ∧ (bytesFind data eocdSig = some 0 → fix_bad_zipfile data = (false, data)) := by
  have h2 : ∀ p, bytesFind data eocdSig = some p → 0 < p →
      fix_bad_zipfile data
        = (true, data.take (p + 22) ++ List.replicate (p + 22 - data.length) 0) := by
    intro p h hp
    have hpos : (0 : Int) < (p : Int) := by exact_mod_cast hp
    simp [fix_bad_zipfile, h, hpos]
  have h3 : bytesFind data eocdSig = none →
      fix_bad_zipfile data = (false, data) := by
    intro h
    simp [fix_bad_zipfile, h]
  have h4 : bytesFind data eocdSig = some 0 →
      fix_bad_zipfile data = (false, data) := by
    intro h
    simp [fix_bad_zipfile, h]
  refine ⟨?_, h2, h3, h4⟩
  constructor
  · intro htrue
    cases hfind : bytesFind data eocdSig with
    | none =>
      rw [h3 hfind] at htrue
      simp at htrue
    | some p =>
      rcases Nat.eq_zero_or_pos p with rfl | hp
      · rw [h4 hfind] at htrue
        simp at htrue
      · refine ⟨?_, p, bytesFind_some_isPrefixOf hfind⟩
        intro h0
        rw [bytesFind_eq_some_zero_of_isPrefixOf h0] at hfind
        injection hfind with hfind
        omega
  · rintro ⟨h0, i, hi⟩
    cases hfind : bytesFind data eocdSig with
    | none => exact absurd hfind (bytesFind_ne_none (by decide) hi)
    | some p =>
      have hp : 0 < p := by
        rcases Nat.eq_zero_or_pos p with rfl | hp
        · have := bytesFind_some_isPrefixOf hfind
          rw [List.drop_zero] at this
          exact absurd this h0
        · exact hp
      rw [h2 p hfind hp]

/-- C5 witness: a file with the signature at offset 5 and trailing garbage
is repaired: true is returned and the file is truncated to the 27 bytes
ending right after the fixed record. -/
theorem C5_witness :
    bytesFind dataC5w eocdSig = some 5
    ∧ 0 < 5
    ∧ fix_bad_zipfile dataC5w
        = (true, dataC5w.take (5 + 22)
            ++ List.replicate (5 + 22 - dataC5w.length) 0) :=
  ⟨by decide, by decide, (C5_repair dataC5w).2.1 5 (by decide) (by decide)⟩

theorem not_mem_fsNames_removeFile (fs : List FsFile) (n : Name) :
    n ∉ fsNames (removeFile fs n) := by
  intro h
  simp only [fsNames, removeFile, List.mem_map] at h
  obtain ⟨f, hf, hfn⟩ := h
  have := (List.mem_filter.mp hf).2
  rw [hfn] at this
  simp at this

theorem mem_removeFile_of_ne (fs : List FsFile) (n : Name) (f : FsFile)
    (hf : f ∈ fs) (hne : f.name ≠ n) : f ∈ removeFile fs n := by
  apply List.mem_filter.mpr
  exact ⟨hf, by simpa using hne⟩

/-- C4 (amended): a session-level failure (the post-build verification
raising) aborts the run fatally and deletes the session archive — but only
the archive.  The manifest, written before verification, is NOT removed by
the `except` block, so the run can leave a manifest-without-archive on
disk (see `C4_cex`). -/
theorem C4_cleanup (env : RunEnv) (hfail : env.verifyFails = true)
    (hnontrivial : env.isFullBackup = true ∨
      totalFilesProcessed env.folders env.baseManifest ≠ 0) :
    (execute_backup env).report = RunReport.fatal
    ∧ sessionName env.isFullBackup env.timestamp ∉ fsNames (execute_backup env).fs
    ∧ (replaceAll ".zip".data "_manifest.json".data
          (sessionName env.isFullBackup env.timestamp)
          ≠ sessionName env.isFullBackup env.timestamp →
        (⟨replaceAll ".zip".data "_manifest.json".data
            (sessionName env.isFullBackup env.timestamp), env.now⟩ : FsFile)
          ∈ (execute_backup env).fs) := by
  have hcond : (!env.isFullBackup
      && (totalFilesProcessed env.folders env.baseManifest == 0)) = false := by
    rcases hnontrivial with h | h
    · simp [h]
    · simp [beq_eq_false_iff_ne.mpr h]
  have hexec : execute_backup env
      = ⟨RunReport.fatal,
          removeFile
            (env.prevFs
              ++ [⟨sessionName env.isFullBackup env.timestamp, env.now⟩,
                  ⟨replaceAll ".zip".data "_manifest.json".data
                    (sessionName env.isFullBackup env.timestamp), env.now⟩])
            (sessionName env.isFullBackup env.timestamp)⟩ := by
    simp [execute_backup, hcond, hfail]
  refine ⟨by rw [hexec], by rw [hexec]; exact not_mem_fsNames_removeFile _ _, ?_⟩
  intro hne
  rw [hexec]
  apply mem_removeFile_of_ne _ _ _ _ hne
  simp

/-- C4 witness: the concrete failing-verification run of `envC4` aborts
fatally, its archive is gone and its manifest is still present. -/
theorem C4_witness :
    (execute_backup envC4).report = RunReport.fatal
    ∧ sessionName envC4.isFullBackup envC4.timestamp
        ∉ fsNames (execute_backup envC4).fs
    ∧ (⟨replaceAll ".zip".data "_manifest.json".data
          (sessionName envC4.isFullBackup envC4.timestamp), envC4.now⟩ : FsFile)
        ∈ (execute_backup envC4).fs := by
  have h := C4_cleanup envC4 rfl (Or.inr (by decide))
  exact ⟨h.1, h.2.1, h.2.2 (by decide)⟩

theorem find?_sorted_max {p : Name → Bool} {l : List Name} {a : Name}
    (hs : List.Sorted (fun x y : Name => y ≤ x) l)
    (hf : l.find? p = some a) :
    ∀ b ∈ l, p b = true → b ≤ a := by
  induction l with
  | nil => simp at hf
  | cons x xs ih =>
    rcases List.sorted_cons.mp hs with ⟨hx, hxs⟩
    by_cases hpx : p x = true
    · rw [List.find?_cons_of_pos _ hpx] at hf
      injection hf with hf
      subst hf
      intro b hb hpb
      rcases List.mem_cons.mp hb with rfl | hbxs
      · exact le_refl _
      · exact hx b hbxs
    · rw [List.find?_cons_of_neg _ (by simpa using hpx)] at hf
      intro b hb hpb
      rcases List.mem_cons.mp hb with rfl | hbxs
      · exact absurd hpb hpx
      · exact ih hxs hf b hbxs hpb

theorem get_last_full_backup_some {names : List Name} {e mp : Name}
    (h : get_last_full_backup names = some (e, mp)) :
    isEligibleFull names e = true
    ∧ mp = fullManifestName e
    ∧ e ∈ names
    ∧ mp ∈ names
    ∧ ∀ n ∈ names, isEligibleFull names n = true → n ≤ e := by
  rw [get_last_full_backup] at h
  rcases Option.map_eq_some'.mp h with ⟨x, hfind, hx⟩
  have hxe : x = e := congrArg Prod.fst hx
  have hmp : mp = fullManifestName e := by
    rw [← hxe]
    exact (congrArg Prod.snd hx).symm
  rw [hxe] at hfind
  have heli : isEligibleFull names e = true := List.find?_some hfind
  have hmem : e ∈ names :=
    (List.perm_insertionSort _ _).mem_iff.mp (List.mem_of_find?_eq_some hfind)
  have hmpmem : mp ∈ names := by
    rw [hmp]
    have := (Bool.and_eq_true _ _).mp heli
    exact (name_contains_iff _ _).mp this.2
  refine ⟨heli, hmp, hmem, hmpmem, ?_⟩
  intro n hn helig
  exact find?_sorted_max (List.sorted_insertionSort _ _) hfind n
    ((List.perm_insertionSort _ _).mem_iff.mpr hn) helig

/-- C7 (amended): for a differential run the comparison base is the
manifest of the most recent Full session THAT STILL HAS A MANIFEST FILE
(newer Full sessions whose derived manifest is missing are skipped in
favour of older ones — the run does not fall back to Full in that case);
the run is planned as Full only when no eligible full-with-manifest exists
at all, or when the selected manifest fails to load. -/
theorem C7_planning (env : PlanEnv) :
    (get_last_full_backup env.names = none → planBackup env = (true, none))
    ∧ (∀ e mp, get_last_full_backup env.names = some (e, mp) →
        mp ∈ env.names ∧ isEligibleFull env.names e = true
          ∧ mp = fullManifestName e
          ∧ ∀ n ∈ env.names, isEligibleFull env.names n = true → n ≤ e)
    ∧ (∀ e mp, env.backupTypeFull = false →
        get_last_full_backup env.names = some (e, mp) →
        env.now - env.ctimeOf e < env.fullBackupInterval * 86400 →
        ((env.manifestReadable mp = true →
            planBackup env = (false, some (env.manifestContent mp)))
          ∧ (env.manifestReadable mp = false →
            planBackup env = (true, none)))) := by
  refine ⟨?_, ?_, ?_⟩
  · intro h
    simp [planBackup, should_create_full_backup, h]
  · intro e mp h
    obtain ⟨heli, hmp, _, hmpmem, hmax⟩ := get_last_full_backup_some h
    exact ⟨hmpmem, heli, hmp, hmax⟩
  · intro e mp htype h hlt
    obtain ⟨heli, hmp, _, hmpmem, _⟩ := get_last_full_backup_some h
    have hscf : should_create_full_backup env.names env.ctimeOf env.now
        env.fullBackupInterval = false := by
      simp only [should_create_full_backup, h]
      exact decide_eq_false (not_le.mpr hlt)
    have hcont : env.names.contains mp = true := (name_contains_iff _ _).mpr hmpmem
    constructor
    · intro hr
      simp [planBackup, htype, hscf, h, hcont, hmpmem, hr]
    · intro hr
      simp [planBackup, htype, hscf, h, hcont, hmpmem, hr]

/-- C7 witness: the concrete two-full scenario of `envC7` plans a
differential against the older full's loaded manifest. -/
theorem C7_witness : planBackup envC7 = (false, some baseC7) := by
  have h := ((C7_planning envC7).2.2 f1maniC7 f1maniC7 rfl (by decide)
    (by decide)).1 rfl
  rw [(by decide : envC7.manifestContent f1maniC7 = baseC7)] at h
  exact h

theorem sortedArchives_perm (fs : List FsFile) :
    (sortedArchives fs).Perm (sessionArchives fs) :=
  List.perm_insertionSort _ _

theorem sortedArchives_sorted (fs : List FsFile) :
    List.Sorted (fun a b : FsFile => a.mtime ≤ b.mtime) (sortedArchives fs) :=
  List.sorted_insertionSort _ _

theorem sortedArchives_length (fs : List FsFile) :
    (sortedArchives fs).length = (sessionArchives fs).length :=
  (sortedArchives_perm fs).length_eq

theorem mem_sessionArchives (fs : List FsFile) (f : FsFile) :
    f ∈ sessionArchives fs ↔ f ∈ fs ∧ isSessionArchiveName f.name = true := by
  simp [sessionArchives, List.mem_filter]

theorem retentionDeleted_sub (maxB : Nat) (fs : List FsFile) (d : FsFile)
    (hd : d ∈ retentionDeleted maxB fs) :
    d ∈ sessionArchives fs ∧ d ∈ fs ∧ isSessionArchiveName d.name = true := by
  have hdS : d ∈ sortedArchives fs := List.take_subset _ _ hd
  have hdA : d ∈ sessionArchives fs := (sortedArchives_perm fs).mem_iff.mp hdS
  have h2 := (mem_sessionArchives fs d).mp hdA
  exact ⟨hdA, h2.1, h2.2⟩

theorem retentionDeleted_length (maxB : Nat) (fs : List FsFile) :
    (retentionDeleted maxB fs).length = (sessionArchives fs).length - maxB := by
  have hsl := sortedArchives_length fs
  simp only [retentionDeleted, List.length_take]
  omega

theorem enforce_eq_self_of_le (maxB : Nat) (fs : List FsFile)
    (h : (sessionArchives fs).length ≤ maxB) :
    enforce_backup_limit maxB fs = fs := by
  have hsl := sortedArchives_length fs
  rw [enforce_backup_limit, if_neg (by omega)]

theorem retentionDeleted_eq_nil_of_le (maxB : Nat) (fs : List FsFile)
    (h : (sessionArchives fs).length ≤ maxB) :
    retentionDeleted maxB fs = [] := by
  have hsl := sortedArchives_length fs
  rw [retentionDeleted, (by omega : (sortedArchives fs).length - maxB = 0),
    List.take_zero]

theorem enforce_eq_filter_of_gt (maxB : Nat) (fs : List FsFile)
    (h : maxB < (sessionArchives fs).length) :
    enforce_backup_limit maxB fs
      = fs.filter
          (fun f => !(fsNames (retentionDeleted maxB fs)).contains f.name) := by
  have hsl := sortedArchives_length fs
  rw [enforce_backup_limit, if_pos (by omega)]

theorem names_nodup_sessionArchives (fs : List FsFile)
    (h : (fsNames fs).Nodup) : (fsNames (sessionArchives fs)).Nodup :=
  List.Nodup.sublist (List.Sublist.map _ (List.filter_sublist fs)) h

theorem names_nodup_sortedArchives (fs : List FsFile)
    (h : (fsNames fs).Nodup) : (fsNames (sortedArchives fs)).Nodup :=
  (((sortedArchives_perm fs).map _).nodup_iff).mpr
    (names_nodup_sessionArchives fs h)

theorem deleted_g_false (maxB : Nat) (fs : List FsFile) (d : FsFile)
    (hd : d ∈ retentionDeleted maxB fs) :
    (!(fsNames (retentionDeleted maxB fs)).contains d.name) = false := by
  have hmem : d.name ∈ fsNames (retentionDeleted maxB fs) :=
    List.mem_map_of_mem _ hd
  have hc : (fsNames (retentionDeleted maxB fs)).contains d.name = true :=
    (name_contains_iff _ _).mpr hmem
  rw [hc]
  rfl

theorem kept_g_true (maxB : Nat) (fs : List FsFile)
    (hn : (fsNames fs).Nodup) (k : FsFile)
    (hk : k ∈ (sortedArchives fs).drop ((sortedArchives fs).length - maxB)) :
    (!(fsNames (retentionDeleted maxB fs)).contains k.name) = true := by
  have hnod : (fsNames (sortedArchives fs)).Nodup := names_nodup_sortedArchives fs hn
  have hsplit : fsNames (sortedArchives fs)
      = fsNames ((sortedArchives fs).take ((sortedArchives fs).length - maxB))
        ++ fsNames ((sortedArchives fs).drop ((sortedArchives fs).length - maxB)) := by
    simp only [fsNames, ← List.map_append, List.take_append_drop]
  rw [hsplit] at hnod
  have hdisj := (List.nodup_append.mp hnod).2.2
  have hkmem : k.name
      ∈ fsNames ((sortedArchives fs).drop ((sortedArchives fs).length - maxB)) :=
    List.mem_map_of_mem _ hk
  have hnotin : k.name
      ∉ fsNames ((sortedArchives fs).take ((sortedArchives fs).length - maxB)) :=
    fun hmem => hdisj hmem hkmem
  have hcf : (fsNames (retentionDeleted maxB fs)).contains k.name = false := by
    by_contra hc
    rw [Bool.not_eq_false] at hc
    exact hnotin ((name_contains_iff _ _).mp hc)
  rw [hcf]
  rfl

theorem sessionArchives_filter (g : FsFile → Bool) (fs : List FsFile) :
    sessionArchives (fs.filter g) = (sessionArchives fs).filter g := by
  unfold sessionArchives
  rw [List.filter_filter, List.filter_filter]
  simp [Bool.and_comm]

theorem sessionArchives_enforce_length (maxB : Nat) (fs : List FsFile)
    (hn : (fsNames fs).Nodup) :
    (sessionArchives (enforce_backup_limit maxB fs)).length
      = min (sessionArchives fs).length maxB := by
  by_cases hle : (sessionArchives fs).length ≤ maxB
  · rw [enforce_eq_self_of_le maxB fs hle, Nat.min_eq_left hle]
  · have hgt : maxB < (sessionArchives fs).length := by omega
    rw [enforce_eq_filter_of_gt maxB fs hgt, sessionArchives_filter]
    have hperm := (sortedArchives_perm fs).filter
      (fun f => !(fsNames (retentionDeleted maxB fs)).contains f.name)
    rw [← hperm.length_eq]
    have hfilter : List.filter
        (fun f => !(fsNames (retentionDeleted maxB fs)).contains f.name)
        (sortedArchives fs)
        = List.filter
            (fun f => !(fsNames (retentionDeleted maxB fs)).contains f.name)
            ((sortedArchives fs).take ((sortedArchives fs).length - maxB))
          ++ List.filter
            (fun f => !(fsNames (retentionDeleted maxB fs)).contains f.name)
            ((sortedArchives fs).drop ((sortedArchives fs).length - maxB)) := by
      conv_lhs =>
        rw [← List.take_append_drop ((sortedArchives fs).length - maxB)
          (sortedArchives fs)]
      rw [List.filter_append]
    have h1 : List.filter
        (fun f => !(fsNames (retentionDeleted maxB fs)).contains f.name)
        ((sortedArchives fs).take ((sortedArchives fs).length - maxB)) = [] := by
      rw [List.filter_eq_nil_iff]
      intro d hd
      have := deleted_g_false maxB fs d hd
      simp only [this]
      exact Bool.false_ne_true
    have h2 : List.filter
        (fun f => !(fsNames (retentionDeleted maxB fs)).contains f.name)
        ((sortedArchives fs).drop ((sortedArchives fs).length - maxB))
        = (sortedArchives fs).drop ((sortedArchives fs).length - maxB) := by
      rw [List.filter_eq_self]
      intro k hk
      exact kept_g_true maxB fs hn k hk
    rw [hfilter, h1, h2, List.nil_append, List.length_drop]
    have hsl := sortedArchives_length fs
    omega

/-- C8: `enforce_backup_limit` lists all session archives (both kinds),
sorted ascending by modification time, and — when the count exceeds
`max_backups` — deletes exactly `count - max_backups` of them, namely the
oldest ones: every deleted file is a session archive that is removed from
the destination, every surviving archive is strictly newer than every
deleted one, exactly `min count max_backups` archives survive, the
operation is a no-op when under the limit, and it is idempotent. -/
theorem C8_enforce_limit (maxBackups : Nat) (fs : List FsFile)
    (hname : (fsNames fs).Nodup)
    (hmt : (sessionArchives fs).Pairwise (fun a b => a.mtime ≠ b.mtime)) :
    ((sessionArchives fs).length ≤ maxBackups →
      enforce_backup_limit maxBackups fs = fs)
    ∧ (retentionDeleted maxBackups fs).length
        = (sessionArchives fs).length - maxBackups
    ∧ (∀ d ∈ retentionDeleted maxBackups fs,
        isSessionArchiveName d.name = true ∧ d ∈ fs
          ∧ d ∉ enforce_backup_limit maxBackups fs)
    ∧ (∀ d ∈ retentionDeleted maxBackups fs,
        ∀ f ∈ enforce_backup_limit maxBackups fs,
          isSessionArchiveName f.name = true → d.mtime < f.mtime)
    ∧ (sessionArchives (enforce_backup_limit maxBackups fs)).length
        = min (sessionArchives fs).length maxBackups
    ∧ enforce_backup_limit maxBackups (enforce_backup_limit maxBackups fs)
        = enforce_backup_limit maxBackups fs := by
  refine ⟨enforce_eq_self_of_le maxBackups fs, retentionDeleted_length maxBackups fs,
    ?_, ?_, sessionArchives_enforce_length maxBackups fs hname, ?_⟩
  · intro d hd
    refine ⟨(retentionDeleted_sub maxBackups fs d hd).2.2,
      (retentionDeleted_sub maxBackups fs d hd).2.1, ?_⟩
    intro hmem
    by_cases hle : (sessionArchives fs).length ≤ maxBackups
    · rw [retentionDeleted_eq_nil_of_le maxBackups fs hle] at hd
      exact absurd hd (List.not_mem_nil d)
    · rw [enforce_eq_filter_of_gt maxBackups fs (by omega)] at hmem
      have hg := (List.mem_filter.mp hmem).2
      rw [deleted_g_false maxBackups fs d hd] at hg
      exact Bool.false_ne_true hg
  · intro d hd f hf harch
    by_cases hle : (sessionArchives fs).length ≤ maxBackups
    · rw [retentionDeleted_eq_nil_of_le maxBackups fs hle] at hd
      exact absurd hd (List.not_mem_nil d)
    · have hgt : maxBackups < (sessionArchives fs).length := by omega
      rw [enforce_eq_filter_of_gt maxBackups fs hgt] at hf
      have hff := List.mem_filter.mp hf
      have hfA : f ∈ sessionArchives fs :=
        (mem_sessionArchives fs f).mpr ⟨hff.1, harch⟩
      have hfS : f ∈ sortedArchives fs := (sortedArchives_perm fs).mem_iff.mpr hfA
      rw [← List.take_append_drop ((sortedArchives fs).length - maxBackups)
        (sortedArchives fs)] at hfS
      rcases List.mem_append.mp hfS with hftake | hfdrop
      · have := deleted_g_false maxBackups fs f hftake
        rw [this] at hff
        exact absurd hff.2 Bool.false_ne_true
      · have hle2 : d.mtime ≤ f.mtime :=
          List.Sorted.rel_of_mem_take_of_mem_drop (sortedArchives_sorted fs) hd hfdrop
        have hdA : d ∈ sessionArchives fs := (retentionDeleted_sub maxBackups fs d hd).1
        have hne : d ≠ f := by
          intro heq
          rw [← heq] at hff
          have := deleted_g_false maxBackups fs d hd
          rw [this] at hff
          exact absurd hff.2 Bool.false_ne_true
        have hsymm : Symmetric (fun a b : FsFile => a.mtime ≠ b.mtime) :=
          fun _ _ h => h.symm
        have hmtne : d.mtime ≠ f.mtime := hmt.forall hsymm hdA hfA hne
        exact lt_of_le_of_ne hle2 hmtne
  · apply enforce_eq_self_of_le
    rw [sessionArchives_enforce_length maxBackups fs hname]
    exact Nat.min_le_right _ _

/-- C8 witness: with `max_backups = 5` and seven session archives of both
kinds (distinct mtimes), exactly the two oldest are deleted, the five
newest survive, and a second run changes nothing. -/
theorem C8_witness :
    (fsNames fsC8).Nodup
    ∧ (sessionArchives fsC8).Pairwise (fun a b => a.mtime ≠ b.mtime)
    ∧ (sessionArchives fsC8).length = 7
    ∧ (retentionDeleted 5 fsC8).length = 2
    ∧ (∀ d ∈ retentionDeleted 5 fsC8,
        ∀ f ∈ enforce_backup_limit 5 fsC8,
          isSessionArchiveName f.name = true → d.mtime < f.mtime)
    ∧ (sessionArchives (enforce_backup_limit 5 fsC8)).length = 5
    ∧ enforce_backup_limit 5 (enforce_backup_limit 5 fsC8)
        = enforce_backup_limit 5 fsC8 := by
  have h := C8_enforce_limit 5 fsC8 (by decide) (by decide)
  refine ⟨by decide, by decide, by decide, ?_, h.2.2.2.1, ?_, h.2.2.2.2.2⟩
  · rw [h.2.1]
    decide
  · rw [h.2.2.2.2.1]
    decide

theorem manifest_not_archive (n : Name) (h : isManifestName n = true) :
    isSessionArchiveName n = false := by
  rw [Bool.eq_false_iff]
  intro harch
  have h1 : "_manifest.json".data <:+ n :=
    List.isSuffixOf_iff_suffix.mp h
  have h2 : ".zip".data <:+ n := by
    have := (Bool.and_eq_true _ _).mp harch
    exact List.isSuffixOf_iff_suffix.mp this.2
  rcases List.suffix_or_suffix_of_suffix h1 h2 with hs | hs
  · exact absurd (List.isSuffixOf_iff_suffix.mpr hs) (by decide)
  · exact absurd (List.isSuffixOf_iff_suffix.mpr hs) (by decide)

/-- C9: enforcing the retention limit deletes only session archive files
(`backup_*.zip`) and never a manifest: every deleted file is a session
archive, and every manifest file present before the run is still present
afterwards. -/
theorem C9_retention_frame (maxBackups : Nat) (fs : List FsFile) (f : FsFile) :
    (∀ d ∈ retentionDeleted maxBackups fs, isSessionArchiveName d.name = true)
    ∧ (f ∈ fs → isManifestName f.name = true →
        f ∈ enforce_backup_limit maxBackups fs) := by
  constructor
  · intro d hd
    exact (retentionDeleted_sub maxBackups fs d hd).2.2
  · intro hf hm
    by_cases hle : (sessionArchives fs).length ≤ maxBackups
    · rw [enforce_eq_self_of_le maxBackups fs hle]
      exact hf
    · rw [enforce_eq_filter_of_gt maxBackups fs (by omega)]
      apply List.mem_filter.mpr
      refine ⟨hf, ?_⟩
      have hcf : (fsNames (retentionDeleted maxBackups fs)).contains f.name
          = false := by
        by_contra hc
        rw [Bool.not_eq_false] at hc
        have hmem := (name_contains_iff _ _).mp hc
        simp only [fsNames, List.mem_map] at hmem
        obtain ⟨d, hd, hdn⟩ := hmem
        have harch := (retentionDeleted_sub maxBackups fs d hd).2.2
        rw [hdn, manifest_not_archive f.name hm] at harch
        exact Bool.false_ne_true harch
      rw [hcf]
      rfl

/-- C9 witness: a concrete destination over the limit — the oldest archive
is deleted, its manifest file survives. -/
theorem C9_witness :
    mfileC9 ∈ fsC9
    ∧ isManifestName mfileC9.name = true
    ∧ mfileC9 ∈ enforce_backup_limit 1 fsC9 := by
  refine ⟨by decide, by decide, ?_⟩
  exact (C9_retention_frame 1 fsC9 mfileC9).2 (by decide) (by decide)

end PyBackup
